import Mathlib

/-!
Verification of the mount-point resolution and dispatch layer of
`jupyterhub_mixed_contents_manager/mixed_contents_manager.py`.

The Python module works with POSIX path strings (`pathlib.PurePath` is
`PurePosixPath` on the deployment platform).  We embed:

* `str.strip("/")` as `stripSlashes`;
* `PurePath(s).parts` (for a relative `s`): splitting on `'/'` and dropping
  empty and `"."` components, as `segs`;
* `str(...)` of a pure path with the given relative parts as `joinSlash`;
* Python's `sorted(keys, reverse=True)` on strings as
  `List.insertionSort (· ≥ ·)`, using Lean's code-point lexicographic string
  order, which coincides with Python's.

Raised Python exceptions are embedded as `Option`/`Except` failure values:
`next` on an exhausted iterator (`StopIteration`), `PurePath.relative_to` on a
non-ancestor (`ValueError`), missing dict keys (`KeyError`), and operations on
values of the wrong shape (`TypeError`/`AttributeError`, both mapped to
`PyErr.typeError`).
-/

namespace MixedCM

/-- Code-point lexicographic `≤` on character lists.  Python compares strings
by Unicode code points, lexicographically; this is that ordering, written as
an executable function so that concrete resolutions compute. -/
def charListLe : List Char → List Char → Bool
  | [], _ => true
  | _ :: _, [] => false
  | a :: as, b :: bs =>
    if a < b then true
    else if b < a then false
    else charListLe as bs

/-- Python string comparison, as `a ≥ b`: the ordering used by
`sorted(..., reverse=True)` when listing mount points most-specific first. -/
def strGe (a b : String) : Prop :=
  charListLe b.toList a.toList = true

instance : DecidableRel strGe := fun a b =>
  inferInstanceAs (Decidable (charListLe b.toList a.toList = true))

/-- Python `s.strip("/")`: remove all leading and trailing `'/'` characters. -/
def stripSlashes (s : String) : String :=
  String.mk (((s.toList.dropWhile (· == '/')).reverse.dropWhile (· == '/')).reverse)

/-- Split a character list on `'/'` (the separators themselves are dropped;
empty pieces between consecutive separators are kept, to be filtered by
`segs` exactly as `pathlib` collapses spurious slashes). -/
def splitSlash : List Char → List (List Char)
  | [] => [[]]
  | c :: cs =>
    if c = '/' then [] :: splitSlash cs
    else
      match splitSlash cs with
      | [] => [[c]]
      | s :: ss => (c :: s) :: ss

/-- The path components of `pathlib.PurePath(s)` for a relative path string
`s`: split on `'/'`, dropping empty components and single-dot components,
exactly as `pathlib` normalizes them away. -/
def segs (s : String) : List String :=
  ((splitSlash s.toList).map String.mk).filter (fun t => !(t == "" || t == "."))

/-- Join path components with `'/'`; `str` of a relative `PurePath` with the
given parts (the empty parts list is rendered `""` here; call sites account
for `PurePath`'s rendering of an empty path as `"."`). -/
def joinSlash : List String → String
  | [] => ""
  | [t] => t
  | t :: rest => t ++ "/" ++ joinSlash rest

/-- Models `PurePath(f"/{p}").is_relative_to(PurePath(f"/{q}"))`: both are absolute,
so they share the root part and the test reduces to `q`'s components being a
leading run of `p`'s components. -/
def is_relative_to (p q : String) : Bool :=
  (segs q).isPrefixOf (segs p)

/-- Source `get_full_path`: strip the child path and join it under
`/{mount_point}`; `str(PurePath(f"/{mount_point}") / PurePath(child))`. -/
def get_full_path (mount_point : String) (child_path : String) : String :=
  let stripped_child_path := stripSlashes child_path
  "/" ++ joinSlash (segs mount_point ++ segs stripped_child_path)

/-- Source `get_mount_point`: strip the path, sort the configured mount
points in descending string order, and take the first one the path is
relative to.  `next` without a default raises `StopIteration` when nothing
matches; the raised exception is embedded as `none`. -/
def get_mount_point {β : Type} (mount_points_dict : List (String × β)) (path : String) :
    Option String :=
  let stripped_path := stripSlashes path
  (List.insertionSort strGe (mount_points_dict.map Prod.fst)).find?
    (fun mount_point => is_relative_to stripped_path mount_point)

/-- Source `get_child_path`:
`str(PurePath(f"/{stripped_path}").relative_to(PurePath(f"/{mount_point}")))`,
with the single-dot result (path equal to the mount point) mapped to `""`.
`relative_to` raises `ValueError` when the mount point is not an ancestor;
the raised exception is embedded as `none`. -/
def get_child_path (mount_point : String) (path : String) : Option String :=
  let stripped_path := stripSlashes path
  if (segs mount_point).isPrefixOf (segs stripped_path) then
    let rest := (segs stripped_path).drop (segs mount_point).length
    let child_path := if rest.isEmpty then "." else joinSlash rest
    some (if child_path = "." then "" else child_path)
  else none

/-- Source `path_lookup`: returns `(manager, mount_point, child_path)`.
The two inner partial operations (dict subscript, `relative_to`) always
succeed once `get_mount_point` returned a configured key. -/
def path_lookup {β : Type} (table : List (String × β)) (path : String) :
    Option (β × String × String) :=
  (get_mount_point table path).bind fun mount_point =>
    (List.lookup mount_point table).bind fun manager =>
      (get_child_path mount_point path).map fun child_path =>
        (manager, mount_point, child_path)

/-- A path string is in canonical segment form when it is exactly the
`'/'`-join of its components: no leading/trailing separators, no doubled
separators, no `"."` components. -/
def canonicalPath (s : String) : Bool :=
  s == joinSlash (segs s)

/-! ### The string comparison used by the descending sort -/

theorem charListLe_refl (l : List Char) : charListLe l l = true := by
  induction l with
  | nil => rfl
  | cons a as ih => simp [charListLe, lt_self_iff_false, ih]

theorem charListLe_cons_iff {a b : Char} {as bs : List Char} :
    charListLe (a :: as) (b :: bs) = true ↔ a < b ∨ (a = b ∧ charListLe as bs = true) := by
  rcases lt_trichotomy a b with h | h | h
  · simp [charListLe, h]
  · subst h
    simp [charListLe, lt_self_iff_false]
  · have hne : a ≠ b := fun he => absurd (he ▸ h) (lt_irrefl _)
    simp [charListLe, asymm h, h, hne]

theorem charListLe_total (a b : List Char) :
    charListLe a b = true ∨ charListLe b a = true := by
  induction a generalizing b with
  | nil => exact .inl rfl
  | cons x xs ih =>
    cases b with
    | nil => exact .inr rfl
    | cons y ys =>
      rcases lt_trichotomy x y with h | h | h
      · exact .inl (charListLe_cons_iff.mpr (.inl h))
      · subst h
        rcases ih ys with h | h
        · exact .inl (charListLe_cons_iff.mpr (.inr ⟨rfl, h⟩))
        · exact .inr (charListLe_cons_iff.mpr (.inr ⟨rfl, h⟩))
      · exact .inr (charListLe_cons_iff.mpr (.inl h))

theorem charListLe_trans : ∀ {a b c : List Char},
    charListLe a b = true → charListLe b c = true → charListLe a c = true
  | [], _, _, _, _ => rfl
  | _ :: _, [], _, h, _ => by simp [charListLe] at h
  | _ :: _, _ :: _, [], _, h => by simp [charListLe] at h
  | a :: as, b :: bs, c :: cs, h1, h2 => by
    rcases charListLe_cons_iff.mp h1 with hab | ⟨hab, h1'⟩ <;>
      rcases charListLe_cons_iff.mp h2 with hbc | ⟨hbc, h2'⟩
    · exact charListLe_cons_iff.mpr (.inl (lt_trans hab hbc))
    · exact charListLe_cons_iff.mpr (.inl (hbc ▸ hab))
    · exact charListLe_cons_iff.mpr (.inl (hab ▸ hbc))
    · exact charListLe_cons_iff.mpr (.inr ⟨hab.trans hbc, charListLe_trans h1' h2'⟩)

theorem charListLe_antisymm : ∀ {a b : List Char},
    charListLe a b = true → charListLe b a = true → a = b
  | [], [], _, _ => rfl
  | [], _ :: _, _, h => by simp [charListLe] at h
  | _ :: _, [], h, _ => by simp [charListLe] at h
  | a :: as, b :: bs, h1, h2 => by
    rcases charListLe_cons_iff.mp h1 with hab | ⟨hab, h1'⟩ <;>
      rcases charListLe_cons_iff.mp h2 with hba | ⟨hba, h2'⟩
    · exact absurd hba (asymm hab)
    · exact absurd (hba ▸ hab) (lt_irrefl _)
    · exact absurd (hab ▸ hba) (lt_irrefl _)
    · exact hab ▸ congrArg (a :: ·) (charListLe_antisymm h1' h2')

theorem charListLe_of_isPrefix : ∀ {l₁ l₂ : List Char}, l₁ <+: l₂ → charListLe l₁ l₂ = true
  | [], _, _ => rfl
  | a :: as, l₂, h => by
    obtain ⟨t, ht⟩ := h
    subst ht
    exact charListLe_cons_iff.mpr (.inr ⟨rfl, charListLe_of_isPrefix ⟨t, rfl⟩⟩)

theorem strGe_refl (a : String) : strGe a a := charListLe_refl _

instance : IsTotal String strGe :=
  ⟨fun a b => (charListLe_total b.toList a.toList).imp (fun h => h) (fun h => h)⟩

instance : IsTrans String strGe :=
  ⟨fun _ _ _ hab hbc => charListLe_trans hbc hab⟩

theorem strGe_antisymm {a b : String} (h1 : strGe a b) (h2 : strGe b a) : a = b := by
  have := charListLe_antisymm h1 h2
  exact ((String.toList_inj).mp this).symm

/-- Derives `strGe a b` whenever `b` is a string prefix of `a`. -/
theorem strGe_of_isPrefix {a b : String} (h : b.toList <+: a.toList) : strGe a b :=
  charListLe_of_isPrefix h

/-! ### `splitSlash` and `segs` -/

theorem splitSlash_cons_slash (cs : List Char) :
    splitSlash ('/' :: cs) = [] :: splitSlash cs := by
  simp [splitSlash]

theorem splitSlash_cons_ne {c : Char} (hc : ¬ c = '/') (cs : List Char) :
    splitSlash (c :: cs) =
      match splitSlash cs with
      | [] => [[c]]
      | s :: ss => (c :: s) :: ss := by
  simp [splitSlash, hc]

theorem splitSlash_ne_nil : ∀ l : List Char, splitSlash l ≠ []
  | [] => by simp [splitSlash]
  | c :: cs => by
    by_cases hc : c = '/'
    · subst hc
      simp [splitSlash_cons_slash]
    · rw [splitSlash_cons_ne hc]
      cases hs : splitSlash cs <;> simp

theorem splitSlash_append_slash : ∀ a b : List Char,
    splitSlash (a ++ '/' :: b) = splitSlash a ++ splitSlash b
  | [], b => by
    show splitSlash ('/' :: b) = splitSlash [] ++ splitSlash b
    rw [splitSlash_cons_slash]
    rfl
  | c :: cs, b => by
    by_cases hc : c = '/'
    · subst hc
      show splitSlash ('/' :: (cs ++ '/' :: b)) = splitSlash ('/' :: cs) ++ splitSlash b
      rw [splitSlash_cons_slash, splitSlash_cons_slash, splitSlash_append_slash cs b]
      rfl
    · cases hs : splitSlash cs with
      | nil => exact absurd hs (splitSlash_ne_nil cs)
      | cons s ss =>
        show splitSlash (c :: (cs ++ '/' :: b)) = splitSlash (c :: cs) ++ splitSlash b
        rw [splitSlash_cons_ne hc, splitSlash_cons_ne hc, splitSlash_append_slash cs b, hs]
        simp

theorem not_slash_mem_splitSlash : ∀ (l : List Char) (p : List Char),
    p ∈ splitSlash l → '/' ∉ p
  | [], p, hp => by
    simp [splitSlash] at hp
    simp [hp]
  | c :: cs, p, hp => by
    by_cases hc : c = '/'
    · subst hc
      rw [splitSlash_cons_slash, List.mem_cons] at hp
      rcases hp with hp | hp
      · simp [hp]
      · exact not_slash_mem_splitSlash cs p hp
    · cases hs : splitSlash cs with
      | nil => exact absurd hs (splitSlash_ne_nil cs)
      | cons s ss =>
        rw [splitSlash_cons_ne hc, hs, List.mem_cons] at hp
        rcases hp with hp | hp
        · subst hp
          intro hmem
          rcases List.mem_cons.mp hmem with h | h
          · exact hc h.symm
          · exact not_slash_mem_splitSlash cs s (by simp [hs]) h
        · exact not_slash_mem_splitSlash cs p (by simp [hs, hp])

theorem splitSlash_of_no_slash : ∀ l : List Char, '/' ∉ l → splitSlash l = [l]
  | [], _ => rfl
  | c :: cs, h => by
    have hc : ¬ c = '/' := fun hc => h (hc ▸ List.mem_cons_self c cs)
    simp only [splitSlash, if_neg hc, splitSlash_of_no_slash cs (fun hm => h (List.mem_cons_of_mem c hm))]

/-! ### `segs`, `joinSlash`, and canonical paths -/

theorem String.mk_toList (s : String) : String.mk s.toList = s := rfl

theorem toList_eq_nil_iff {s : String} : s.toList = [] ↔ s = "" := by
  constructor
  · intro h
    have : String.mk s.toList = String.mk [] := by rw [h]
    simpa [String.mk_toList] using this
  · intro h
    simp [h, String.toList]

theorem toList_append_slash (a b : String) :
    (a ++ "/" ++ b).toList = a.toList ++ '/' :: b.toList := by
  show (a ++ "/" ++ b).data = a.data ++ '/' :: b.data
  simp [String.data_append]

theorem segs_append_slash (a b : String) : segs (a ++ "/" ++ b) = segs a ++ segs b := by
  unfold segs
  rw [toList_append_slash, splitSlash_append_slash]
  simp

theorem mem_segs {s t : String} (h : t ∈ segs s) :
    t ≠ "" ∧ t ≠ "." ∧ '/' ∉ t.toList := by
  unfold segs at h
  have hf := List.of_mem_filter h
  have hm := List.mem_of_mem_filter h
  simp only [Bool.not_eq_true', Bool.or_eq_false_iff, beq_eq_false_iff_ne] at hf
  refine ⟨hf.1, hf.2, ?_⟩
  obtain ⟨p, hp, rfl⟩ := List.mem_map.mp hm
  exact not_slash_mem_splitSlash _ p hp

theorem segs_singleton {t : String} (h1 : t ≠ "") (h2 : t ≠ ".") (h3 : '/' ∉ t.toList) :
    segs t = [t] := by
  unfold segs
  rw [splitSlash_of_no_slash t.toList h3]
  simp [String.mk_toList, h1, h2]

theorem joinSlash_cons {t : String} {rest : List String} (h : rest ≠ []) :
    joinSlash (t :: rest) = t ++ "/" ++ joinSlash rest := by
  cases rest with
  | nil => exact absurd rfl h
  | cons r rs => rfl

theorem joinSlash_append : ∀ {sa sb : List String}, sa ≠ [] → sb ≠ [] →
    joinSlash (sa ++ sb) = joinSlash sa ++ "/" ++ joinSlash sb
  | [], _, ha, _ => absurd rfl ha
  | [a], sb, _, hb => by
    rw [List.singleton_append, joinSlash_cons hb]
    rfl
  | a :: a2 :: as, sb, _, hb => by
    have hne : (a2 :: as : List String) ≠ [] := by simp
    have hne2 : (a2 :: as) ++ sb ≠ [] := by simp
    rw [List.cons_append, joinSlash_cons hne2, joinSlash_append hne hb, joinSlash_cons hne]
    show a ++ "/" ++ (joinSlash (a2 :: as) ++ "/" ++ joinSlash sb) =
      a ++ "/" ++ joinSlash (a2 :: as) ++ "/" ++ joinSlash sb
    simp [String.append_assoc]

theorem segs_joinSlash : ∀ {parts : List String},
    (∀ t ∈ parts, t ≠ "" ∧ t ≠ "." ∧ '/' ∉ t.toList) → segs (joinSlash parts) = parts
  | [], _ => by decide
  | [t], h => by
    obtain ⟨h1, h2, h3⟩ := h t (by simp)
    rw [show joinSlash [t] = t from rfl, segs_singleton h1 h2 h3]
  | t :: t2 :: ts, h => by
    have hne : (t2 :: ts : List String) ≠ [] := by simp
    obtain ⟨h1, h2, h3⟩ := h t (by simp)
    rw [joinSlash_cons hne, segs_append_slash, segs_singleton h1 h2 h3,
      segs_joinSlash (fun u hu => h u (List.mem_cons_of_mem t hu))]
    rfl

theorem canonicalPath_joinSlash {parts : List String}
    (h : ∀ t ∈ parts, t ≠ "" ∧ t ≠ "." ∧ '/' ∉ t.toList) :
    canonicalPath (joinSlash parts) = true := by
  unfold canonicalPath
  rw [segs_joinSlash h]
  simp

theorem canonicalPath_eq {s : String} (h : canonicalPath s = true) :
    s = joinSlash (segs s) := by
  simpa [canonicalPath] using h

theorem joinSlash_ne_empty : ∀ {parts : List String}, parts ≠ [] →
    (∀ t ∈ parts, t ≠ "") → joinSlash parts ≠ ""
  | [], h, _ => absurd rfl h
  | [t], _, h => by simpa using h t (by simp)
  | t :: t2 :: ts, _, h => by
    have hne : (t2 :: ts : List String) ≠ [] := by simp
    rw [joinSlash_cons hne]
    intro hcontra
    have : (t ++ "/" ++ joinSlash (t2 :: ts)).toList = [] := by
      rw [hcontra]
      rfl
    rw [toList_append_slash] at this
    simp at this

theorem dropWhile_slash_eq_self {l : List Char} (h : l.head? ≠ some '/') :
    l.dropWhile (· == '/') = l := by
  cases l with
  | nil => rfl
  | cons c cs =>
    have hc : ¬ (c == '/') = true := by
      simp only [List.head?_cons, ne_eq, Option.some.injEq] at h
      simp [h]
    simp [List.dropWhile_cons, hc]

theorem stripSlashes_eq_self {s : String} (h1 : s.toList.head? ≠ some '/')
    (h2 : s.toList.getLast? ≠ some '/') : stripSlashes s = s := by
  unfold stripSlashes
  rw [dropWhile_slash_eq_self h1, dropWhile_slash_eq_self (by rwa [List.head?_reverse]),
    List.reverse_reverse, String.mk_toList]

theorem joinSlash_head_last : ∀ {parts : List String}, parts ≠ [] →
    (∀ t ∈ parts, t ≠ "" ∧ '/' ∉ t.toList) →
    (joinSlash parts).toList.head? ≠ some '/' ∧ (joinSlash parts).toList.getLast? ≠ some '/'
  | [], h, _ => absurd rfl h
  | [t], _, h => by
    obtain ⟨h1, h3⟩ := h t (by simp)
    exact ⟨fun hc => h3 (List.mem_of_mem_head? (Option.mem_def.mpr hc)),
      fun hc => h3 (List.mem_of_mem_getLast? (Option.mem_def.mpr hc))⟩
  | t :: t2 :: ts, _, h => by
    have hne : (t2 :: ts : List String) ≠ [] := by simp
    obtain ⟨h1, h3⟩ := h t (by simp)
    have ih := joinSlash_head_last hne (fun u hu => h u (List.mem_cons_of_mem t hu))
    have hzne : joinSlash (t2 :: ts) ≠ "" :=
      joinSlash_ne_empty hne (fun u hu => (h u (List.mem_cons_of_mem t hu)).1)
    have hz : (joinSlash (t2 :: ts)).toList ≠ [] := fun hc => hzne (toList_eq_nil_iff.mp hc)
    have htl : t.toList ≠ [] := fun hc => h1 (toList_eq_nil_iff.mp hc)
    rw [joinSlash_cons hne, toList_append_slash]
    obtain ⟨c, cs, hcs⟩ := List.exists_cons_of_ne_nil htl
    obtain ⟨w, ws, hws⟩ := List.exists_cons_of_ne_nil hz
    constructor
    · rw [hcs]
      intro hc
      simp only [List.cons_append, List.head?_cons, Option.some.injEq] at hc
      exact h3 (by rw [hcs, hc]; exact List.mem_cons_self _ _)
    · intro hc
      rw [List.getLast?_append, hws, List.getLast?_cons_cons] at hc
      obtain ⟨x, hx⟩ : ∃ x, (w :: ws).getLast? = some x := by
        cases hgl : (w :: ws).getLast? with
        | none =>
          rw [List.getLast?_eq_none_iff] at hgl
          exact absurd hgl (by simp)
        | some x => exact ⟨x, rfl⟩
      rw [hx, Option.or_some, Option.some.injEq] at hc
      apply ih.2
      rw [hws, hx, hc]


theorem isPrefixOf_iff {α : Type} [BEq α] [LawfulBEq α] {l₁ l₂ : List α} :
    l₁.isPrefixOf l₂ = true ↔ l₁ <+: l₂ :=
  List.isPrefixOf_iff_prefix

theorem isPrefixOf_self {α : Type} [BEq α] [LawfulBEq α] (l : List α) :
    l.isPrefixOf l = true :=
  isPrefixOf_iff.mpr ( List.prefix_refl l)

theorem canonical_head_last {s : String} (h : canonicalPath s = true) :
    s.toList.head? ≠ some '/' ∧ s.toList.getLast? ≠ some '/' := by
  cases hseg : segs s with
  | nil =>
    have hs : s = "" := by
      have := canonicalPath_eq h
      rwa [hseg] at this
    subst hs
    decide
  | cons a as =>
    have heq := canonicalPath_eq h
    rw [hseg] at heq
    rw [heq]
    exact joinSlash_head_last (by simp)
      (fun t ht => ⟨(mem_segs (hseg ▸ ht)).1, (mem_segs (hseg ▸ ht)).2.2⟩)

theorem stripSlashes_canonical {s : String} (h : canonicalPath s = true) :
    stripSlashes s = s :=
  stripSlashes_eq_self (canonical_head_last h).1 (canonical_head_last h).2

theorem stripSlashes_slash_append {s : String} (h1 : s.toList.head? ≠ some '/')
    (h2 : s.toList.getLast? ≠ some '/') : stripSlashes ("/" ++ s) = s := by
  unfold stripSlashes
  have hd : ("/" ++ s).toList = '/' :: s.toList := by
    show ("/" ++ s).data = '/' :: s.data
    simp [String.data_append]
  rw [hd]
  have hdrop : List.dropWhile (· == '/') ('/' :: s.toList) = List.dropWhile (· == '/') s.toList := by
    simp [List.dropWhile_cons]
  rw [hdrop, dropWhile_slash_eq_self h1,
    dropWhile_slash_eq_self (by rwa [List.head?_reverse]), List.reverse_reverse,
    String.mk_toList]

theorem stripSlashes_append_slash {s : String} (h1 : s.toList.head? ≠ some '/')
    (h2 : s.toList.getLast? ≠ some '/') : stripSlashes (s ++ "/") = s := by
  cases hsl : s.toList with
  | nil =>
    have hse : s = "" := toList_eq_nil_iff.mp hsl
    subst hse
    decide
  | cons c cs =>
    unfold stripSlashes
    have hd : (s ++ "/").toList = s.toList ++ ['/'] := by
      show (s ++ "/").data = s.data ++ ['/']
      simp [String.data_append]
    have hc : c ≠ '/' := by
      rw [hsl] at h1
      simpa using h1
    have hd1 : (s.toList ++ ['/']).head? ≠ some '/' := by
      rw [hsl]
      simpa using hc
    rw [hd, dropWhile_slash_eq_self hd1, List.reverse_append]
    have hrev : (['/'] : List Char).reverse ++ s.toList.reverse = '/' :: s.toList.reverse := by
      simp
    rw [hrev]
    have hdrop : List.dropWhile (· == '/') ('/' :: s.toList.reverse)
        = List.dropWhile (· == '/') s.toList.reverse := by
      simp [List.dropWhile_cons]
    rw [hdrop, dropWhile_slash_eq_self (by rwa [List.head?_reverse]), List.reverse_reverse,
      String.mk_toList]

theorem strip_join_child {mp child : String} (hmp : canonicalPath mp = true)
    (hch : canonicalPath child = true) :
    stripSlashes (mp ++ "/" ++ child) = joinSlash (segs mp ++ segs child) := by
  cases hm : segs mp with
  | nil =>
    have hmpe : mp = "" := by
      have := canonicalPath_eq hmp
      rwa [hm] at this
    subst hmpe
    have hl := canonical_head_last hch
    rw [List.nil_append, ← canonicalPath_eq hch, String.empty_append,
      stripSlashes_slash_append hl.1 hl.2]
  | cons a as =>
    cases hcseg : segs child with
    | nil =>
      have hche : child = "" := by
        have := canonicalPath_eq hch
        rwa [hcseg] at this
      subst hche
      have hl := canonical_head_last hmp
      rw [List.append_nil, ← hm, ← canonicalPath_eq hmp, String.append_empty,
        stripSlashes_append_slash hl.1 hl.2]
    | cons b bs =>
      rw [← hm, ← hcseg]
      have hjoin : mp ++ "/" ++ child = joinSlash (segs mp ++ segs child) := by
        rw [joinSlash_append (by rw [hm]; simp) (by rw [hcseg]; simp),
          ← canonicalPath_eq hmp, ← canonicalPath_eq hch]
      rw [hjoin]
      apply stripSlashes_canonical
      apply canonicalPath_joinSlash
      intro t ht
      rcases List.mem_append.mp ht with h | h
      · exact mem_segs h
      · exact mem_segs h

theorem joinSlash_ne_dot {parts : List String} (hne : parts ≠ [])
    (h : ∀ t ∈ parts, t ≠ "" ∧ t ≠ "." ∧ '/' ∉ t.toList) : joinSlash parts ≠ "." := by
  cases parts with
  | nil => exact absurd rfl hne
  | cons t rest =>
    cases rest with
    | nil => exact (h t (by simp)).2.1
    | cons t2 ts =>
      have hne2 : (t2 :: ts : List String) ≠ [] := by simp
      rw [joinSlash_cons hne2]
      intro hcontra
      have hdata : (t ++ "/" ++ joinSlash (t2 :: ts)).toList = ("." : String).toList := by
        rw [hcontra]
      rw [toList_append_slash] at hdata
      have htne : t.toList ≠ [] := fun hc => (h t (by simp)).1 (toList_eq_nil_iff.mp hc)
      obtain ⟨c, cs, hcs⟩ := List.exists_cons_of_ne_nil htne
      rw [hcs] at hdata
      have : cs ++ '/' :: (joinSlash (t2 :: ts)).toList = [] := by
        have := List.cons.injEq c (cs ++ '/' :: (joinSlash (t2 :: ts)).toList) '.' []
        simp only [List.cons_append] at hdata
        exact (List.cons_eq_cons.mp hdata).2
      simp at this

/-! ### The descending sort and `find?` -/

theorem find?_max_sorted {l : List String} {pr : String → Bool} {q x : String}
    (hs : List.Sorted strGe l) (hf : l.find? pr = some q) (hx : x ∈ l) (hpx : pr x = true) :
    strGe q x := by
  induction l with
  | nil => simp at hf
  | cons y t ih =>
    rcases List.sorted_cons.mp hs with ⟨hy, ht⟩
    by_cases hpy : pr y = true
    · rw [List.find?_cons_of_pos _ hpy] at hf
      injection hf with hf
      subst hf
      rcases List.mem_cons.mp hx with hx | hx
      · subst hx
        exact strGe_refl x
      · exact hy x hx
    · rw [List.find?_cons_of_neg _ hpy] at hf
      rcases List.mem_cons.mp hx with hx | hx
      · subst hx
        exact absurd hpx hpy
      · exact ih ht hf hx

theorem lookup_of_mem_keys {β : Type} : ∀ {table : List (String × β)} {k : String},
    k ∈ table.map Prod.fst → ∃ v, List.lookup k table = some v
  | [], k, h => by simp at h
  | (k', v') :: t, k, h => by
    by_cases he : k = k'
    · subst he
      exact ⟨v', by simp [List.lookup]⟩
    · have hmem : k ∈ t.map Prod.fst := by
        rw [List.map_cons, List.mem_cons] at h
        rcases h with hk | hk
        · exact absurd hk he
        · exact hk
      obtain ⟨v, hv⟩ := lookup_of_mem_keys hmem
      have hbeq : (k == k') = false := by simp [he]
      exact ⟨v, by simp [List.lookup, hbeq, hv]⟩

theorem get_mount_point_mem_matches {β : Type} {table : List (String × β)} {p q : String}
    (h : get_mount_point table p = some q) :
    q ∈ table.map Prod.fst ∧ is_relative_to (stripSlashes p) q = true := by
  unfold get_mount_point at h
  exact ⟨(List.mem_insertionSort strGe).mp (List.mem_of_find?_eq_some h), List.find?_some h⟩

theorem get_mount_point_ge {β : Type} {table : List (String × β)} {p q x : String}
    (h : get_mount_point table p = some q) (hx : x ∈ table.map Prod.fst)
    (hmatch : is_relative_to (stripSlashes p) x = true) : strGe q x := by
  unfold get_mount_point at h
  exact find?_max_sorted (List.sorted_insertionSort strGe _) h
    ((List.mem_insertionSort strGe).mpr hx) hmatch

theorem path_lookup_inv {β : Type} {table : List (String × β)} {p : String} {mgr : β}
    {mp child : String} (h : path_lookup table p = some (mgr, mp, child)) :
    get_mount_point table p = some mp ∧ List.lookup mp table = some mgr ∧
      get_child_path mp p = some child := by
  unfold path_lookup at h
  rcases Option.bind_eq_some.mp h with ⟨mp2, hmp2, h2⟩
  rcases Option.bind_eq_some.mp h2 with ⟨mgr2, hmgr2, h3⟩
  rcases Option.map_eq_some'.mp h3 with ⟨c2, hc2, heq⟩
  cases heq
  exact ⟨hmp2, hmgr2, hc2⟩

/-! ### Resolution of configured prefixes and path reconstruction -/

theorem get_child_path_of_matched {mp p : String}
    (hpre : (segs mp).isPrefixOf (segs (stripSlashes p)) = true) :
    get_child_path mp p = some (
      if ((segs (stripSlashes p)).drop (segs mp).length).isEmpty then ""
      else joinSlash ((segs (stripSlashes p)).drop (segs mp).length)) := by
  simp only [get_child_path]
  rw [if_pos hpre]
  by_cases hres : ((segs (stripSlashes p)).drop (segs mp).length).isEmpty
  · simp [hres]
  · have hrest_ne : (segs (stripSlashes p)).drop (segs mp).length ≠ [] := by
      simpa using hres
    have hne_dot : joinSlash ((segs (stripSlashes p)).drop (segs mp).length) ≠ "." := by
      apply joinSlash_ne_dot hrest_ne
      intro t ht
      exact mem_segs (List.mem_of_mem_drop ht)
    rw [if_neg hres, if_neg hres, if_neg hne_dot]

theorem get_child_path_self {p : String} (hstrip : stripSlashes p = p) :
    get_child_path p p = some "" := by
  simp only [get_child_path, hstrip]
  rw [if_pos (isPrefixOf_self _)]
  simp [List.drop_length]

/-- Resolving a configured prefix, over a table whose prefixes are canonical,
yields that prefix itself as the mount point and the empty child path. -/
theorem resolve_configured_root {β : Type} {table : List (String × β)}
    (hcanon : ∀ q ∈ table.map Prod.fst, canonicalPath q = true)
    {p : String} (hp : p ∈ table.map Prod.fst) :
    ∃ mgr, path_lookup table p = some (mgr, p, "") := by
  have hpc := hcanon p hp
  have hstrip := stripSlashes_canonical hpc
  have hmatch : is_relative_to (stripSlashes p) p = true := by
    unfold is_relative_to
    rw [hstrip]
    exact isPrefixOf_self _
  obtain ⟨mgr, hmgr⟩ := lookup_of_mem_keys hp
  cases hq : get_mount_point table p with
  | none =>
    exfalso
    unfold get_mount_point at hq
    rw [List.find?_eq_none] at hq
    exact hq p ((List.mem_insertionSort strGe).mpr hp) hmatch
  | some q =>
    obtain ⟨hqmem, hqmatch⟩ := get_mount_point_mem_matches hq
    have hqp : strGe q p := get_mount_point_ge hq hp hmatch
    have hpq : strGe p q := by
      have hqc := hcanon q hqmem
      have hseg : segs q <+: segs p := by
        have := isPrefixOf_iff.mp hqmatch
        rwa [hstrip] at this
      apply strGe_of_isPrefix
      obtain ⟨t, ht⟩ := hseg
      cases hsq : segs q with
      | nil =>
        have hqe : q = "" := by
          have := canonicalPath_eq hqc
          rwa [hsq] at this
        subst hqe
        exact ⟨p.toList, rfl⟩
      | cons a as =>
        by_cases hte : t = []
        · subst hte
          rw [List.append_nil] at ht
          have hqp2 : q = p := by
            rw [canonicalPath_eq hqc, canonicalPath_eq hpc, ht]
          rw [hqp2]
        · have hpeq : p = q ++ "/" ++ joinSlash t := by
            rw [canonicalPath_eq hpc, ← ht, joinSlash_append (by rw [hsq]; simp) hte,
              ← canonicalPath_eq hqc]
          rw [hpeq, toList_append_slash]
          exact ⟨'/' :: (joinSlash t).toList, rfl⟩
    have heq : q = p := strGe_antisymm hqp hpq
    refine ⟨mgr, ?_⟩
    unfold path_lookup
    rw [hq, Option.some_bind, heq, hmgr, Option.some_bind, get_child_path_self hstrip,
      Option.map_some']

/-- Whenever `path_lookup` succeeds over a canonical-prefix table, rejoining
the mount point and the child path and stripping separators yields the
canonical segment form of the (stripped) input path. -/
theorem reconstruction_core {β : Type} {table : List (String × β)}
    (hcanon : ∀ q ∈ table.map Prod.fst, canonicalPath q = true)
    {p : String} {mgr : β} {mp child : String}
    (h : path_lookup table p = some (mgr, mp, child)) :
    stripSlashes (mp ++ "/" ++ child) = joinSlash (segs (stripSlashes p)) := by
  obtain ⟨hq, hmgr, hcp⟩ := path_lookup_inv h
  obtain ⟨hmem, hmatch⟩ := get_mount_point_mem_matches hq
  have hmpc := hcanon mp hmem
  have hseg : segs mp <+: segs (stripSlashes p) := isPrefixOf_iff.mp hmatch
  obtain ⟨t, ht⟩ := hseg
  have hchild := get_child_path_of_matched hmatch
  have hchild_eq : child =
      if ((segs (stripSlashes p)).drop (segs mp).length).isEmpty then ""
      else joinSlash ((segs (stripSlashes p)).drop (segs mp).length) := by
    have h2 := hcp.symm.trans hchild
    injection h2
  have hdrop : (segs (stripSlashes p)).drop (segs mp).length = t := by
    rw [← ht, List.drop_left]
  by_cases hte : t = []
  · rw [hdrop, hte] at hchild_eq
    simp only [List.isEmpty_nil, if_true] at hchild_eq
    subst hchild_eq
    have hsegs_eq : segs (stripSlashes p) = segs mp := by
      rw [← ht, hte, List.append_nil]
    rw [hsegs_eq, ← canonicalPath_eq hmpc, String.append_empty]
    exact stripSlashes_append_slash (canonical_head_last hmpc).1 (canonical_head_last hmpc).2
  · rw [hdrop] at hchild_eq
    rw [if_neg (by simpa using hte)] at hchild_eq
    subst hchild_eq
    have hwf : ∀ u ∈ t, u ≠ "" ∧ u ≠ "." ∧ '/' ∉ u.toList := by
      intro u hu
      have humem : u ∈ segs (stripSlashes p) := by
        rw [← ht]
        exact List.mem_append_right _ hu
      exact mem_segs humem
    have hchc : canonicalPath (joinSlash t) = true := canonicalPath_joinSlash hwf
    rw [strip_join_child hmpc hchc, segs_joinSlash hwf, ht]

/-! ### Python values, item models, and `transform_child_model`

Item models returned by backends are Python values: dicts (ordered key/value
chains, keys unique in any value a dict can take), lists (cons chains),
strings, booleans, `None`.  `PyErr` stands for raised exceptions;
`typeError` covers `TypeError`/`AttributeError`-class failures from
operating on a value of the wrong shape. -/

inductive PyErr where
  | stopIteration : PyErr
  | keyError : String → PyErr
  | valueError : String → PyErr
  | typeError : PyErr
deriving DecidableEq

inductive PyObj where
  | boolV : Bool → PyObj
  | strV : String → PyObj
  | noneV : PyObj
  | listNil : PyObj
  | listCons : PyObj → PyObj → PyObj
  | dictNil : PyObj
  | dictCons : String → PyObj → PyObj → PyObj
deriving DecidableEq

/-- Dict subscript `d[key]` (first matching key), `none` when absent or when
the value is not a dict. -/
def getKey : PyObj → String → Option PyObj
  | .dictCons k v rest, key => if k = key then some v else getKey rest key
  | _, _ => none

/-- Python truthiness. -/
def truthy : PyObj → Bool
  | .boolV b => b
  | .strV s => !(s == "")
  | .noneV => false
  | .listNil => false
  | .listCons _ _ => true
  | .dictNil => false
  | .dictCons _ _ _ => true

/-- Source `is_iterable`: `iter(x)` succeeds for strings, lists and dicts,
fails (`TypeError`) for booleans and `None`. -/
def is_iterable : PyObj → Bool
  | .strV _ => true
  | .listNil => true
  | .listCons _ _ => true
  | .dictNil => true
  | .dictCons _ _ _ => true
  | _ => false

/-- Contiguous-substring test on character lists (Python `needle in hay`
for strings). -/
def strContains (needle : List Char) : List Char → Bool
  | [] => needle.isEmpty
  | c :: cs => needle.isPrefixOf (c :: cs) || strContains needle cs

/-- Python `key in x`: key test on dicts, substring test on strings,
element test on lists, `TypeError` (never reached by the guard, which
checks `is_iterable` first) mapped to `false` elsewhere. -/
def pyIn (key : String) : PyObj → Bool
  | .dictCons k _ rest => k == key || pyIn key rest
  | .strV s => strContains key.toList s.toList
  | .listCons hd tl => hd == .strV key || pyIn key tl
  | _ => false

/-- The guard of `transform_child_model`:
`model and is_iterable(model) and "path" in model and "type" in model`. -/
def guardB (model : PyObj) : Bool :=
  truthy model && is_iterable model && pyIn "path" model && pyIn "type" model

/-- Tests `model["type"] == "directory"`. -/
def isDirB (model : PyObj) : Bool :=
  getKey model "type" == some (.strV "directory")

/-- Dict assignment `d[key] = val`: replace the value at the first matching
key in place (dict keys are unique), append when absent. -/
def pySetKey : PyObj → String → PyObj → PyObj
  | .dictCons k v rest, key, val =>
    if k = key then .dictCons k val rest else .dictCons k v (pySetKey rest key val)
  | .dictNil, key, val => .dictCons key val .dictNil
  | m, _, _ => m

/-- The action of `transform_child_model` on a string value (proved as
`transform_strV`): a string that passes the substring-based guard — it is
non-empty and contains both `"path"` and `"type"` as substrings — reaches
`model["path"]` on a `str` and raises a `TypeError`; every other string is
returned unchanged. -/
def transformStrElem (e : String) : Except PyErr PyObj :=
  if guardB (.strV e) then .error .typeError else .ok (.strV e)

/-- The one-character strings Python yields when iterating over a `str`. -/
def pyChars (s : String) : List String :=
  s.toList.map (fun c => String.mk [c])

/-- The keys of a dict in insertion order: the values Python yields when
iterating over a `dict`. -/
def dictKeys : PyObj → List String
  | .dictCons k _ rest => k :: dictKeys rest
  | _ => []

/-- The comprehension `[transform_child_model(mount_point, m) for m in x]`
when the iterated elements are strings (character iteration over a `str`,
key iteration over a `dict`): each element goes through the string action
`transformStrElem` of `transform_child_model` (see `transform_strV`) and
the results are collected into a list. -/
def transformStrs : List String → Except PyErr PyObj
  | [] => .ok .listNil
  | e :: rest =>
    match transformStrElem e with
    | .ok m2 =>
      match transformStrs rest with
      | .ok tl2 => .ok (.listCons m2 tl2)
      | .error err => .error err
    | .error err => .error err

mutual

/-- Source `transform_child_model` (pure value semantics of the in-place
mutation): when the guard passes, set `model["path"]` to
`get_full_path(mount_point, model["path"])` and, when
`model["type"] == "directory"`, map the transformation over
`model["content"]`; otherwise return the model unchanged.  The in-place dict
updates are expressed as the entry walk `updateFields`, which rewrites the
(unique) `"path"` entry and, for directories, the `"content"` entry while
keeping all other entries in place.  A directory model without a `"content"`
key raises `KeyError`; a non-string `"path"` value raises a
`TypeError`-class error; a `"content"` value is iterated like any Python
iterable — elements of a list, characters of a string, keys of a dict —
and a non-iterable `"content"` value (a boolean or `None`) raises
`TypeError`. -/
def transform_child_model (mount_point : String) (model : PyObj) : Except PyErr PyObj :=
  if guardB model then
    match model with
    | .dictCons k v rest =>
      match getKey (.dictCons k v rest) "path" with
      | some (.strV _) =>
        if isDirB (.dictCons k v rest) then
          match getKey (.dictCons k v rest) "content" with
          | none => .error (.keyError "content")
          | some _ => updateFields mount_point true (.dictCons k v rest)
        else
          updateFields mount_point false (.dictCons k v rest)
      | some _ => .error .typeError
      | none => .error (.keyError "path")
    | _ => .error .typeError
  else .ok model
termination_by 2 * sizeOf model + 1

/-- The entry walk of `transform_child_model` over the model's dict. -/
def updateFields (mount_point : String) (isDir : Bool) : PyObj → Except PyErr PyObj
  | .dictNil => .ok .dictNil
  | .dictCons k v rest =>
    if k == "path" then
      match v with
      | .strV p =>
        match updateFields mount_point isDir rest with
        | .ok rest2 => .ok (.dictCons k (.strV (get_full_path mount_point p)) rest2)
        | .error e => .error e
      | _ => .error .typeError
    else if (k == "content") && isDir then
      match transformList mount_point v with
      | .ok v2 =>
        match updateFields mount_point isDir rest with
        | .ok rest2 => .ok (.dictCons k v2 rest2)
        | .error e => .error e
      | .error e => .error e
    else
      match updateFields mount_point isDir rest with
      | .ok rest2 => .ok (.dictCons k v rest2)
      | .error e => .error e
  | _ => .error .typeError
termination_by m => 2 * sizeOf m

/-- The comprehension `[transform_child_model(mount_point, m) for m in content]`:
iterating a list visits its elements; iterating a string visits its
characters (as one-character strings) and iterating a dict visits its keys,
each string element handled by `transformStrElem`, the action of
`transform_child_model` on strings (lemma `transform_strV`); `iter()` on a
boolean or on `None` raises `TypeError`. -/
def transformList (mount_point : String) : PyObj → Except PyErr PyObj
  | .listNil => .ok .listNil
  | .listCons m tl =>
    match transform_child_model mount_point m with
    | .ok m2 =>
      match transformList mount_point tl with
      | .ok tl2 => .ok (.listCons m2 tl2)
      | .error e => .error e
    | .error e => .error e
  | .strV s => transformStrs (pyChars s)
  | .dictNil => .ok .listNil
  | .dictCons k v rest => transformStrs (dictKeys (.dictCons k v rest))
  | _ => .error .typeError
termination_by m => 2 * sizeOf m

end

mutual

/-- Observer for C2: the `path` values of a model record and, for
directory-typed records, of every record in its (arbitrarily nested)
`content` list — exactly the fields the rewrite is specified to reach. -/
def collectPaths (m : PyObj) : List String :=
  if guardB m then collectEntries (isDirB m) m else []
termination_by 2 * sizeOf m + 1

def collectEntries (isDir : Bool) : PyObj → List String
  | .dictCons k v rest =>
    (if k == "path" then
      match v with
      | .strV p => [p]
      | _ => []
     else if (k == "content") && isDir then collectList v
     else []) ++ collectEntries isDir rest
  | _ => []
termination_by m => 2 * sizeOf m

def collectList : PyObj → List String
  | .listCons m tl => collectPaths m ++ collectList tl
  | _ => []
termination_by m => 2 * sizeOf m

end

mutual

/-- Observer for C10: erase exactly the data `transform_child_model` is
allowed to change — the `path` value of a guarded record and, recursively,
the records inside a guarded directory record's `content` list.  Two models
with equal scrubs agree on everything else. -/
def scrubModel (m : PyObj) : PyObj :=
  if guardB m then scrubEntries (isDirB m) m else m
termination_by 2 * sizeOf m + 1

def scrubEntries (isDir : Bool) : PyObj → PyObj
  | .dictCons k v rest =>
    .dictCons k
      (if k == "path" then .strV ""
       else if (k == "content") && isDir then scrubList v
       else v)
      (scrubEntries isDir rest)
  | m => m
termination_by m => 2 * sizeOf m

def scrubList : PyObj → PyObj
  | .listCons m tl => .listCons (scrubModel m) (scrubList tl)
  | m => m
termination_by m => 2 * sizeOf m

end

mutual

/-- Well-formed item models (the shape the Jupyter contents API guarantees):
whenever the transformation guard passes the value is a dict whose `"path"`
entries hold strings, and, for directory-typed records, with a `"content"`
entry holding a list of well-formed models; non-record results (booleans
and other unguarded values) are unconstrained. -/
def wfModel (m : PyObj) : Bool :=
  if guardB m then
    match m with
    | .dictCons k v rest =>
      (match getKey (.dictCons k v rest) "path" with
       | some (.strV _) => true
       | _ => false)
      && (!(isDirB (.dictCons k v rest)) || pyIn "content" (.dictCons k v rest))
      && wfEntries (isDirB (.dictCons k v rest)) (.dictCons k v rest)
    | _ => false
  else true
termination_by 2 * sizeOf m + 1

def wfEntries (isDir : Bool) : PyObj → Bool
  | .dictNil => true
  | .dictCons k v rest =>
    (if k == "path" then
      match v with
      | .strV _ => true
      | _ => false
     else if (k == "content") && isDir then wfList v
     else true)
    && wfEntries isDir rest
  | _ => false
termination_by m => 2 * sizeOf m

def wfList : PyObj → Bool
  | .listNil => true
  | .listCons m tl => wfModel m && wfList tl
  | _ => false
termination_by m => 2 * sizeOf m

end

/-! ### The dispatch decorators -/

/-- Source `path_dispatch1`: resolve the path, call the bound backend method
on the child path, and rewrite the returned model under the matched mount
point.  A failed resolution propagates the raised `StopIteration`. -/
def path_dispatch1 {β : Type} (table : List (String × β)) (method : β → String → PyObj)
    (path : String) : Except PyErr PyObj :=
  match path_lookup table path with
  | none => .error .stopIteration
  | some (manager, mount_point, child_path) =>
    transform_child_model mount_point (method manager child_path)

/-- Source `path_dispatch_rename` (used by `rename` and `rename_file`):
resolve both paths; raise `ValueError` when they land on different mount
points, otherwise call the backend method on the two child paths and
rewrite the result.  Backend state is threaded explicitly through `σ`; on
every failure path the state is returned untouched, since no backend
method is ever invoked. -/
def path_dispatch_rename {β σ : Type} (table : List (String × β))
    (method : β → String → String → σ → PyObj × σ) (path_a path_b : String) (s : σ) :
    Except PyErr PyObj × σ :=
  match path_lookup table path_a with
  | none => (.error .stopIteration, s)
  | some (manager_a, mount_point_a, _child_path_a) =>
    match path_lookup table path_b with
    | none => (.error .stopIteration, s)
    | some (_, mount_point_b, child_path_b) =>
      if mount_point_a ≠ mount_point_b then
        (.error (.valueError
          "Does not know how to move things across contents manager mountpoints"), s)
      else
        let r := method manager_a _child_path_a child_path_b s
        (transform_child_model mount_point_a r.1, r.2)

/-- Source `MixedContentsManager.update`: resolve `path` and
`model["path"]`; raise `ValueError` on a cross-mount pair; otherwise call
the backend's `update` with the *original* model and the first child path.
`new_model` — a copy of the model with its path replaced by the second
child path — is computed and then discarded, exactly as in the source.
Subscripting a model that lacks a `"path"` key (including the empty dict)
raises `KeyError`; subscripting a non-dict model raises a
`TypeError`-class error. -/
def MixedContentsManager.update {β σ : Type} (table : List (String × β))
    (method : β → PyObj → String → σ → PyObj × σ) (model : PyObj) (path : String) (s : σ) :
    Except PyErr PyObj × σ :=
  match path_lookup table path with
  | none => (.error .stopIteration, s)
  | some (manager_a, mount_point_a, child_path_a) =>
    match model with
    | .dictCons mk mv mrest =>
      match getKey (.dictCons mk mv mrest) "path" with
      | some (.strV bpath) =>
        match path_lookup table bpath with
        | none => (.error .stopIteration, s)
        | some (_, mount_point_b, child_path_b) =>
          if mount_point_a ≠ mount_point_b then
            (.error (.valueError "Cannot move files across mount points"), s)
          else
            let _new_model := pySetKey (.dictCons mk mv mrest) "path" (.strV child_path_b)
            let r := method manager_a (.dictCons mk mv mrest) child_path_a s
            (.ok r.1, r.2)
      | some _ => (.error .typeError, s)
      | none => (.error (.keyError "path"), s)
    | .dictNil => (.error (.keyError "path"), s)
    | _ => (.error .typeError, s)

/-! ### Frame and rewrite properties of `transform_child_model` -/

theorem pyObj_sizeOf_pos (m : PyObj) : 0 < sizeOf m := by
  cases m <;> simp +arith

theorem updateFields_nil (mp : String) (d : Bool) :
    updateFields mp d .dictNil = .ok .dictNil := by
  rw [updateFields.eq_def]

theorem updateFields_cons (mp : String) (d : Bool) (k : String) (v rest : PyObj) :
    updateFields mp d (.dictCons k v rest) =
      if k == "path" then
        match v with
        | .strV p =>
          match updateFields mp d rest with
          | .ok rest2 => .ok (.dictCons k (.strV (get_full_path mp p)) rest2)
          | .error e => .error e
        | _ => .error .typeError
      else if (k == "content") && d then
        match transformList mp v with
        | .ok v2 =>
          match updateFields mp d rest with
          | .ok rest2 => .ok (.dictCons k v2 rest2)
          | .error e => .error e
        | .error e => .error e
      else
        match updateFields mp d rest with
        | .ok rest2 => .ok (.dictCons k v rest2)
        | .error e => .error e := by
  rw [updateFields.eq_def]

theorem transformList_nil (mp : String) : transformList mp .listNil = .ok .listNil := by
  rw [transformList.eq_def]

theorem transformList_cons (mp : String) (m tl : PyObj) :
    transformList mp (.listCons m tl) =
      match transform_child_model mp m with
      | .ok m2 =>
        match transformList mp tl with
        | .ok tl2 => .ok (.listCons m2 tl2)
        | .error e => .error e
      | .error e => .error e := by
  rw [transformList.eq_def]

theorem transform_dictCons (mp : String) (k : String) (v rest : PyObj) :
    transform_child_model mp (.dictCons k v rest) =
      if guardB (.dictCons k v rest) then
        match getKey (.dictCons k v rest) "path" with
        | some (.strV _) =>
          if isDirB (.dictCons k v rest) then
            match getKey (.dictCons k v rest) "content" with
            | none => .error (.keyError "content")
            | some _ => updateFields mp true (.dictCons k v rest)
          else updateFields mp false (.dictCons k v rest)
        | some _ => .error .typeError
        | none => .error (.keyError "path")
      else .ok (.dictCons k v rest) := by
  rw [transform_child_model.eq_def]

theorem transform_unguarded (mp : String) {m : PyObj} (hg : guardB m = false) :
    transform_child_model mp m = .ok m := by
  rw [transform_child_model.eq_def]
  simp [hg]

/-- On a string value `transform_child_model` acts exactly as
`transformStrElem`: a guard-passing string raises `TypeError` (the guarded
branch subscripts a `str`), any other string is returned unchanged. -/
theorem transform_strV (mp : String) (s : String) :
    transform_child_model mp (.strV s) = transformStrElem s := by
  unfold transformStrElem
  cases hg : guardB (.strV s) with
  | false => rw [if_neg (by simp), transform_unguarded mp hg]
  | true => rw [if_pos rfl, transform_child_model.eq_def, if_pos hg]

theorem transformList_strV (mp : String) (s : String) :
    transformList mp (.strV s) = transformStrs (pyChars s) := by
  rw [transformList.eq_def]

theorem transformList_dictCons (mp : String) (k : String) (v rest : PyObj) :
    transformList mp (.dictCons k v rest) = transformStrs (dictKeys (.dictCons k v rest)) := by
  rw [transformList.eq_def]

theorem collectPaths_def (m : PyObj) :
    collectPaths m = if guardB m then collectEntries (isDirB m) m else [] := by
  rw [collectPaths.eq_def]

theorem collectEntries_cons (d : Bool) (k : String) (v rest : PyObj) :
    collectEntries d (.dictCons k v rest) =
      (if k == "path" then
        match v with
        | .strV p => [p]
        | _ => []
       else if (k == "content") && d then collectList v
       else []) ++ collectEntries d rest := by
  rw [collectEntries.eq_def]

theorem collectList_cons (m tl : PyObj) :
    collectList (.listCons m tl) = collectPaths m ++ collectList tl := by
  rw [collectList.eq_def]

theorem scrubModel_def (m : PyObj) :
    scrubModel m = if guardB m then scrubEntries (isDirB m) m else m := by
  rw [scrubModel.eq_def]

theorem scrubEntries_cons (d : Bool) (k : String) (v rest : PyObj) :
    scrubEntries d (.dictCons k v rest) =
      .dictCons k
        (if k == "path" then .strV ""
         else if (k == "content") && d then scrubList v
         else v)
        (scrubEntries d rest) := by
  rw [scrubEntries.eq_def]

theorem scrubList_cons (m tl : PyObj) :
    scrubList (.listCons m tl) = .listCons (scrubModel m) (scrubList tl) := by
  rw [scrubList.eq_def]

theorem scrubList_nil : scrubList .listNil = .listNil := by
  rw [scrubList.eq_def]

theorem scrubList_strV (s : String) : scrubList (.strV s) = .strV s := by
  rw [scrubList.eq_def]

theorem scrubEntries_nil (d : Bool) : scrubEntries d .dictNil = .dictNil := by
  rw [scrubEntries.eq_def]

theorem wfModel_dictCons (k : String) (v rest : PyObj) :
    wfModel (.dictCons k v rest) =
      if guardB (.dictCons k v rest) then
        (match getKey (.dictCons k v rest) "path" with
         | some (.strV _) => true
         | _ => false)
        && (!(isDirB (.dictCons k v rest)) || pyIn "content" (.dictCons k v rest))
        && wfEntries (isDirB (.dictCons k v rest)) (.dictCons k v rest)
      else true := by
  rw [wfModel.eq_def]

theorem wfModel_unguarded {m : PyObj} (hg : guardB m = false) : wfModel m = true := by
  rw [wfModel.eq_def]
  simp [hg]

theorem wfEntries_nil (d : Bool) : wfEntries d .dictNil = true := by
  rw [wfEntries.eq_def]

theorem wfEntries_cons (d : Bool) (k : String) (v rest : PyObj) :
    wfEntries d (.dictCons k v rest) =
      ((if k == "path" then
        match v with
        | .strV _ => true
        | _ => false
       else if (k == "content") && d then wfList v
       else true)
      && wfEntries d rest) := by
  rw [wfEntries.eq_def]

theorem wfList_nil : wfList .listNil = true := by
  rw [wfList.eq_def]

theorem wfList_cons (m tl : PyObj) :
    wfList (.listCons m tl) = (wfModel m && wfList tl) := by
  rw [wfList.eq_def]

theorem collectEntries_nil (d : Bool) : collectEntries d .dictNil = [] := by
  rw [collectEntries.eq_def]

theorem collectList_nil : collectList .listNil = [] := by
  rw [collectList.eq_def]

theorem getKey_isSome_of_pyIn : ∀ {m : PyObj} {key : String} {d : Bool},
    wfEntries d m = true → pyIn key m = true → ∃ cv, getKey m key = some cv := by
  intro m
  induction m with
  | dictCons k v rest ihv ihr =>
    intro key d hwf hin
    rw [wfEntries_cons] at hwf
    rw [Bool.and_eq_true] at hwf
    by_cases hk : k = key
    · subst hk
      exact ⟨v, by simp [getKey]⟩
    · have hin2 : pyIn key rest = true := by
        simp only [pyIn, Bool.or_eq_true, beq_iff_eq] at hin
        rcases hin with hin | hin
        · exact absurd hin hk
        · exact hin
      obtain ⟨cv, hcv⟩ := ihr hwf.2 hin2
      exact ⟨cv, by simp [getKey, hk, hcv]⟩
  | dictNil => intro key d _ hin; simp [pyIn] at hin
  | boolV b => intro key d hwf _; rw [wfEntries.eq_def] at hwf; simp at hwf
  | strV s => intro key d hwf _; rw [wfEntries.eq_def] at hwf; simp at hwf
  | noneV => intro key d hwf _; rw [wfEntries.eq_def] at hwf; simp at hwf
  | listNil => intro key d hwf _; rw [wfEntries.eq_def] at hwf; simp at hwf
  | listCons a b iha ihb => intro key d hwf _; rw [wfEntries.eq_def] at hwf; simp at hwf

theorem rewrite_aux : ∀ n : Nat, ∀ m : PyObj, sizeOf m ≤ n →
    (∀ mount_point, wfModel m = true → ∃ m2, transform_child_model mount_point m = .ok m2 ∧
        collectPaths m2 = (collectPaths m).map (get_full_path mount_point)
        ∧ scrubModel m2 = scrubModel m)
    ∧ (∀ mount_point d, wfEntries d m = true → ∃ m2, updateFields mount_point d m = .ok m2 ∧
        collectEntries d m2 = (collectEntries d m).map (get_full_path mount_point)
        ∧ scrubEntries d m2 = scrubEntries d m
        ∧ getKey m2 "type" = getKey m "type"
        ∧ (∀ key, pyIn key m2 = pyIn key m)
        ∧ ((m = .dictNil ∧ m2 = .dictNil)
            ∨ (∃ k v rest v2 rest2, m = .dictCons k v rest ∧ m2 = .dictCons k v2 rest2)))
    ∧ (∀ mount_point, wfList m = true → ∃ m2, transformList mount_point m = .ok m2 ∧
        collectList m2 = (collectList m).map (get_full_path mount_point)
        ∧ scrubList m2 = scrubList m) := by
  intro n
  induction n with
  | zero =>
    intro m hm
    exact absurd (Nat.lt_of_lt_of_le (pyObj_sizeOf_pos m) hm) (by simp)
  | succ n ih =>
    intro m hm
    have partB : ∀ mount_point d, wfEntries d m = true →
        ∃ m2, updateFields mount_point d m = .ok m2 ∧
        collectEntries d m2 = (collectEntries d m).map (get_full_path mount_point)
        ∧ scrubEntries d m2 = scrubEntries d m
        ∧ getKey m2 "type" = getKey m "type"
        ∧ (∀ key, pyIn key m2 = pyIn key m)
        ∧ ((m = .dictNil ∧ m2 = .dictNil)
            ∨ (∃ k v rest v2 rest2, m = .dictCons k v rest ∧ m2 = .dictCons k v2 rest2)) := by
      intro mount_point d hwf
      cases m with
      | dictNil =>
        refine ⟨.dictNil, updateFields_nil mount_point d, ?_, rfl, rfl, fun _ => rfl,
          .inl ⟨rfl, rfl⟩⟩
        rw [collectEntries_nil]
        rfl
      | dictCons k v rest =>
        have hrest_size : sizeOf rest ≤ n := by
          simp +arith at hm
          omega
        have hv_size : sizeOf v ≤ n := by
          simp +arith at hm
          omega
        rw [wfEntries_cons, Bool.and_eq_true] at hwf
        obtain ⟨hwf_entry, hwf_rest⟩ := hwf
        obtain ⟨rest2, hres, hcoll, hscrub, htype, hin, _⟩ :=
          (ih rest hrest_size).2.1 mount_point d hwf_rest
        by_cases hk : (k == "path") = true
        · rw [if_pos hk] at hwf_entry
          cases v with
          | strV p =>
            refine ⟨.dictCons k (.strV (get_full_path mount_point p)) rest2, ?_, ?_, ?_, ?_, ?_,
              .inr ⟨k, .strV p, rest, _, rest2, rfl, rfl⟩⟩
            · rw [updateFields_cons, if_pos hk, hres]
            · rw [collectEntries_cons, collectEntries_cons]
              simp only [if_pos hk, List.map_append, hcoll]
              simp
            · rw [scrubEntries_cons, scrubEntries_cons]
              simp only [if_pos hk, hscrub]
            · have hkp : k = "path" := by simpa using hk
              subst hkp
              simp only [getKey, if_neg (by decide : ¬ ("path" : String) = "type"), htype]
            · intro key
              simp only [pyIn, hin]
          | boolV b => simp at hwf_entry
          | noneV => simp at hwf_entry
          | listNil => simp at hwf_entry
          | listCons a b => simp at hwf_entry
          | dictNil => simp at hwf_entry
          | dictCons a b c => simp at hwf_entry
        · rw [if_neg hk] at hwf_entry
          by_cases hc : ((k == "content") && d) = true
          · rw [if_pos hc] at hwf_entry
            obtain ⟨v2, hlist, hlcoll, hlscrub⟩ := (ih v hv_size).2.2 mount_point hwf_entry
            refine ⟨.dictCons k v2 rest2, ?_, ?_, ?_, ?_, ?_,
              .inr ⟨k, v, rest, v2, rest2, rfl, rfl⟩⟩
            · rw [updateFields_cons, if_neg hk, if_pos hc, hlist, hres]
            · rw [collectEntries_cons, collectEntries_cons]
              simp only [if_neg hk, if_pos hc, List.map_append, hcoll, hlcoll]
            · rw [scrubEntries_cons, scrubEntries_cons]
              simp only [if_neg hk, if_pos hc, hlscrub, hscrub]
            · have hkc : k = "content" := by
                have hc2 := hc
                simp at hc2
                exact hc2.1
              subst hkc
              simp only [getKey, if_neg (by decide : ¬ ("content" : String) = "type"), htype]
            · intro key
              simp only [pyIn, hin]
          · refine ⟨.dictCons k v rest2, ?_, ?_, ?_, ?_, ?_,
              .inr ⟨k, v, rest, v, rest2, rfl, rfl⟩⟩
            · rw [updateFields_cons, if_neg hk, if_neg hc, hres]
            · rw [collectEntries_cons, collectEntries_cons]
              simp only [if_neg hk, if_neg hc, List.map_append, hcoll]
              simp
            · rw [scrubEntries_cons, scrubEntries_cons]
              simp only [if_neg hk, if_neg hc, hscrub]
            · by_cases hkt : k = "type"
              · subst hkt
                simp [getKey]
              · simp [getKey, hkt, htype]
            · intro key
              simp only [pyIn, hin]
      | boolV b => rw [wfEntries.eq_def] at hwf; simp at hwf
      | strV s2 => rw [wfEntries.eq_def] at hwf; simp at hwf
      | noneV => rw [wfEntries.eq_def] at hwf; simp at hwf
      | listNil => rw [wfEntries.eq_def] at hwf; simp at hwf
      | listCons a b => rw [wfEntries.eq_def] at hwf; simp at hwf
    have partC : ∀ mount_point, wfList m = true →
        ∃ m2, transformList mount_point m = .ok m2 ∧
          collectList m2 = (collectList m).map (get_full_path mount_point)
          ∧ scrubList m2 = scrubList m := by
      intro mount_point hwf
      cases m with
      | listNil =>
        refine ⟨.listNil, transformList_nil mount_point, ?_, rfl⟩
        rw [collectList_nil]
        rfl
      | listCons m0 tl =>
        have hm0_size : sizeOf m0 ≤ n := by
          simp +arith at hm
          omega
        have htl_size : sizeOf tl ≤ n := by
          simp +arith at hm
          omega
        rw [wfList_cons, Bool.and_eq_true] at hwf
        obtain ⟨m02, h0, hcol0, hscr0⟩ := (ih m0 hm0_size).1 mount_point hwf.1
        obtain ⟨tl2, htl, hcoltl, hscrtl⟩ := (ih tl htl_size).2.2 mount_point hwf.2
        refine ⟨.listCons m02 tl2, ?_, ?_, ?_⟩
        · rw [transformList_cons, h0, htl]
        · rw [collectList_cons, collectList_cons, List.map_append, hcol0, hcoltl]
        · rw [scrubList_cons, scrubList_cons, hscr0, hscrtl]
      | boolV b => rw [wfList.eq_def] at hwf; simp at hwf
      | strV s2 => rw [wfList.eq_def] at hwf; simp at hwf
      | noneV => rw [wfList.eq_def] at hwf; simp at hwf
      | dictNil => rw [wfList.eq_def] at hwf; simp at hwf
      | dictCons a b c => rw [wfList.eq_def] at hwf; simp at hwf
    refine ⟨?_, partB, partC⟩
    intro mount_point hwf
    by_cases hg : guardB m = true
    · cases m with
      | dictCons k v rest =>
        rw [wfModel_dictCons, if_pos hg, Bool.and_eq_true, Bool.and_eq_true] at hwf
        obtain ⟨⟨hwf_path, hwf_cont⟩, hwf_chain⟩ := hwf
        obtain ⟨p, hgk⟩ : ∃ p, getKey (.dictCons k v rest) "path" = some (.strV p) := by
          cases hgk : getKey (.dictCons k v rest) "path" with
          | none => rw [hgk] at hwf_path; simp at hwf_path
          | some pv =>
            cases pv with
            | strV p => exact ⟨p, rfl⟩
            | boolV b => rw [hgk] at hwf_path; simp at hwf_path
            | noneV => rw [hgk] at hwf_path; simp at hwf_path
            | listNil => rw [hgk] at hwf_path; simp at hwf_path
            | listCons a b => rw [hgk] at hwf_path; simp at hwf_path
            | dictNil => rw [hgk] at hwf_path; simp at hwf_path
            | dictCons a b c => rw [hgk] at hwf_path; simp at hwf_path
        obtain ⟨m2, hupd, hcoll, hscrub, htype, hin, hshape⟩ :=
          partB mount_point (isDirB (.dictCons k v rest)) hwf_chain
        rcases hshape with ⟨hcontra, _⟩ | ⟨k2, v2, rest2, v3, rest3, heq1, heq2⟩
        · exact absurd hcontra (by simp)
        · have hg2 : guardB m2 = guardB (.dictCons k v rest) := by
            injection heq1 with e1 e2 e3
            subst e1
            subst heq2
            simp only [guardB, truthy, is_iterable, hin]
          have hd2 : isDirB m2 = isDirB (.dictCons k v rest) := by
            simp only [isDirB, htype]
          refine ⟨m2, ?_, ?_, ?_⟩
          · rw [transform_dictCons, if_pos hg, hgk]
            by_cases hd : isDirB (.dictCons k v rest) = true
            · rw [if_pos hd]
              have hpin : pyIn "content" (.dictCons k v rest) = true := by
                rw [hd] at hwf_cont
                simpa using hwf_cont
              obtain ⟨cv, hcv⟩ := getKey_isSome_of_pyIn hwf_chain hpin
              rw [hcv, ← hd]
              exact hupd
            · rw [if_neg hd]
              have hd3 : isDirB (.dictCons k v rest) = false := by simpa using hd
              rw [← hd3]
              exact hupd
          · rw [collectPaths_def, collectPaths_def, hg2, hg, if_pos rfl, if_pos rfl, hd2, hcoll]
          · rw [scrubModel_def, scrubModel_def, hg2, hg, if_pos rfl, if_pos rfl, hd2, hscrub]
      | boolV b => rw [wfModel.eq_def, if_pos hg] at hwf; simp at hwf
      | strV s2 => rw [wfModel.eq_def, if_pos hg] at hwf; simp at hwf
      | noneV => rw [wfModel.eq_def, if_pos hg] at hwf; simp at hwf
      | listNil => rw [wfModel.eq_def, if_pos hg] at hwf; simp at hwf
      | listCons a b => rw [wfModel.eq_def, if_pos hg] at hwf; simp at hwf
      | dictNil => rw [wfModel.eq_def, if_pos hg] at hwf; simp at hwf
    · have hg2 : guardB m = false := by simpa using hg
      refine ⟨m, transform_unguarded mount_point hg2, ?_, rfl⟩
      rw [collectPaths_def, hg2]
      simp

/-- Claim C1: for the mount table `{"": A, "b": B, "b/c": C}`, resolution
picks the longest segment-aware matching mount point: `""` and `"o"` go to
`""`/A, `"b"` and `"b/o"` to `"b"`/B, `"b/c"` and `"b/c/o"` to `"b/c"`/C —
with the expected child paths. -/
theorem claim_c1 :
    path_lookup [("", "A"), ("b", "B"), ("b/c", "C")] "" = some ("A", "", "")
    ∧ path_lookup [("", "A"), ("b", "B"), ("b/c", "C")] "o" = some ("A", "", "o")
    ∧ path_lookup [("", "A"), ("b", "B"), ("b/c", "C")] "b" = some ("B", "b", "")
    ∧ path_lookup [("", "A"), ("b", "B"), ("b/c", "C")] "b/o" = some ("B", "b", "o")
    ∧ path_lookup [("", "A"), ("b", "B"), ("b/c", "C")] "b/c" = some ("C", "b/c", "")
    ∧ path_lookup [("", "A"), ("b", "B"), ("b/c", "C")] "b/c/o" = some ("C", "b/c", "o") := by
  decide

/-- Claim C2: a dispatched operation that returns an item record rewrites
every `path` field of the result by re-prefixing it with the matched mount
point, recursing through the `content` list of directory-typed records to
arbitrary nesting depth (stated via the observer `collectPaths` over
well-formed backend results). -/
theorem claim_c2 {β : Type} (table : List (String × β)) (method : β → String → PyObj)
    (path : String) (manager : β) (mount_point child_path : String)
    (hlook : path_lookup table path = some (manager, mount_point, child_path))
    (hwf : wfModel (method manager child_path) = true) :
    ∃ m2, path_dispatch1 table method path = .ok m2 ∧
      collectPaths m2 = (collectPaths (method manager child_path)).map (get_full_path mount_point) := by
  obtain ⟨m2, ht, hc, _⟩ :=
    (rewrite_aux (sizeOf (method manager child_path)) _ le_rfl).1 mount_point hwf
  refine ⟨m2, ?_, hc⟩
  simp only [path_dispatch1, hlook]
  exact ht

/-- A two-level directory listing used to witness C2. -/
def c2Model : PyObj :=
  .dictCons "path" (.strV "") (.dictCons "type" (.strV "directory")
    (.dictCons "content"
      (.listCons (.dictCons "path" (.strV "f.txt") (.dictCons "type" (.strV "file") .dictNil))
        (.listCons (.dictCons "path" (.strV "d") (.dictCons "type" (.strV "directory")
          (.dictCons "content" .listNil .dictNil))) .listNil))
      .dictNil))

theorem claim_c2_witness :
    ∃ m2, path_dispatch1 [("b", 0)] (fun _ _ => c2Model) "b" = .ok m2 ∧
      collectPaths m2 = (collectPaths c2Model).map (get_full_path "b") :=
  claim_c2 [("b", 0)] (fun _ _ => c2Model) "b" 0 "b" "" (by decide)
    (by simp [c2Model, wfModel_dictCons, wfEntries_cons, wfEntries_nil, wfList_cons, wfList_nil,
      guardB, truthy, is_iterable, pyIn, isDirB, getKey, strContains])

/-- Claim C3: when the two paths of `rename`/`rename_file` (both dispatched
through `path_dispatch_rename`) or of `update` resolve to different mount
points, the operation raises the cross-mount `ValueError` — for every
backend method and every backend state, and the threaded backend state is
returned unchanged (no backend operation runs). -/
theorem claim_c3 {β σ : Type} (table : List (String × β))
    (method : β → String → String → σ → PyObj × σ)
    (umethod : β → PyObj → String → σ → PyObj × σ)
    (model : PyObj) (path_a path_b : String) (s : σ)
    (ma : β) (mpa ca : String) (mb : β) (mpb cb : String)
    (ha : path_lookup table path_a = some (ma, mpa, ca))
    (hb : path_lookup table path_b = some (mb, mpb, cb))
    (hmodel : getKey model "path" = some (.strV path_b))
    (hne : mpa ≠ mpb) :
    path_dispatch_rename table method path_a path_b s =
      (.error (.valueError "Does not know how to move things across contents manager mountpoints"), s)
    ∧ MixedContentsManager.update table umethod model path_a s =
      (.error (.valueError "Cannot move files across mount points"), s) := by
  constructor
  · simp only [path_dispatch_rename, ha, hb]
    rw [if_pos hne]
  · cases model with
    | dictCons mk mv mrest =>
      simp only [MixedContentsManager.update, ha, hmodel, hb]
      rw [if_pos hne]
    | boolV b => simp [getKey] at hmodel
    | strV s2 => simp [getKey] at hmodel
    | noneV => simp [getKey] at hmodel
    | listNil => simp [getKey] at hmodel
    | listCons a b => simp [getKey] at hmodel
    | dictNil => simp [getKey] at hmodel

theorem claim_c3_witness :
    path_dispatch_rename [("", "A"), ("b", "B")]
      (fun _ ca cb (s : Nat) => (PyObj.boolV true, s + 1)) "b/x" "y" 0 =
      (.error (.valueError "Does not know how to move things across contents manager mountpoints"), 0)
    ∧ MixedContentsManager.update [("", "A"), ("b", "B")]
      (fun _ m p (s : Nat) => (PyObj.boolV true, s + 1))
      (.dictCons "path" (.strV "y") .dictNil) "b/x" 0 =
      (.error (.valueError "Cannot move files across mount points"), 0) :=
  claim_c3 [("", "A"), ("b", "B")] _ _ (.dictCons "path" (.strV "y") .dictNil)
    "b/x" "y" 0 "B" "b" "x" "A" "" "y" (by decide) (by decide) (by decide) (by decide)

/-- The model passed to `update` in the C4 failing input: a file record
whose unified path is `"b/y"`. -/
def c4Model : PyObj :=
  .dictCons "path" (.strV "b/y") (.dictCons "type" (.strV "file") .dictNil)

/-- Claim C4, evaluated at the failing input: `rename` (dispatched through
`path_dispatch_rename`) does forward both child paths (`"x"`, `"y"`) to the
backend, but `update` forwards the *original* model — whose `path` is still
the unified `"b/y"`, not the child path `"y"` — together with the first
child path; the `new_model` carrying the child path is computed and
discarded.  The recording backend method exposes exactly the arguments the
backend receives. -/
theorem claim_c4_update_bug :
    MixedContentsManager.update [("b", "B")]
      (fun _ m p (_ : Option (PyObj × String)) => (PyObj.boolV true, some (m, p)))
      c4Model "b/x" none =
      (.ok (.boolV true), some (c4Model, "x"))
    ∧ get_child_path "b" "b/y" = some "y"
    ∧ getKey c4Model "path" = some (.strV "b/y")
    ∧ ("b/y" : String) ≠ "y"
    ∧ path_dispatch_rename [("b", "B")]
        (fun _ ca cb (_ : Option (String × String)) => (PyObj.boolV true, some (ca, cb)))
        "b/x" "b/y" none =
      (.ok (.boolV true), some ("x", "y")) := by
  refine ⟨rfl, by decide, by decide, by decide, ?_⟩
  have hga : path_lookup [("b", "B")] "b/x" = some ("B", "b", "x") := by decide
  have hgb : path_lookup [("b", "B")] "b/y" = some ("B", "b", "y") := by decide
  simp only [path_dispatch_rename, hga, hgb]
  rw [if_neg (by simp)]
  rw [transform_unguarded _ (by decide : guardB (.boolV true) = false)]

/-- Claim C5 as stated is false: the counterexample resolves `"a//b"`
against the root mount; the child path is the segment-normalized `"a/b"`,
so rejoining and stripping yields `"a/b"`, not the stripped input
`"a//b"`. -/
theorem claim_c5_counterexample :
    path_lookup [("", "A")] "a//b" = some ("A", "", "a/b")
    ∧ stripSlashes ("" ++ "/" ++ "a/b") ≠ stripSlashes "a//b" := by
  decide

/-- Claim C5 (amended): over a mount table whose prefixes are in canonical
segment form, a successful resolution reconstructs the *canonical segment
form* of the stripped input path when the mount point and child path are
rejoined with a separator and stripped; in particular it reconstructs the
stripped input itself whenever that is already canonical (no internal
doubled separators or dot segments). -/
theorem claim_c5 {β : Type} (table : List (String × β))
    (hcanon : ∀ q ∈ table.map Prod.fst, canonicalPath q = true)
    (p : String) (mgr : β) (mp child : String)
    (h : path_lookup table p = some (mgr, mp, child)) :
    stripSlashes (mp ++ "/" ++ child) = joinSlash (segs (stripSlashes p))
    ∧ (canonicalPath (stripSlashes p) = true →
        stripSlashes (mp ++ "/" ++ child) = stripSlashes p) := by
  have h1 := reconstruction_core hcanon h
  exact ⟨h1, fun hc => by rw [h1, ← canonicalPath_eq hc]⟩

theorem claim_c5_witness :
    stripSlashes ("b" ++ "/" ++ "c") = joinSlash (segs (stripSlashes "b/c"))
    ∧ (canonicalPath (stripSlashes "b/c") = true →
        stripSlashes ("b" ++ "/" ++ "c") = stripSlashes "b/c") :=
  claim_c5 [("", "A"), ("b", "B")] (by decide) "b/c" "B" "b" "c" (by decide)

/-- Claim C6 as stated is false: in the table `{"b/.": Q, "b/!x": P}` both
prefixes have no leading or trailing separators, yet resolving the
configured prefix `"b/!x"` matches the non-canonical prefix `"b/."`
(which sorts higher and covers the same segment `"b"`), producing child
path `"!x"` rather than `""`. -/
theorem claim_c6_counterexample :
    path_lookup [("b/.", "Q"), ("b/!x", "P")] "b/!x" = some ("Q", "b/.", "!x")
    ∧ "b/!x" ∈ ([("b/.", "Q"), ("b/!x", "P")].map Prod.fst)
    ∧ ("!x" : String) ≠ ""
    ∧ stripSlashes "b/." = "b/." ∧ stripSlashes "b/!x" = "b/!x" := by
  decide

/-- Claim C6 (amended): over a mount table whose configured prefixes are in
canonical segment form, resolving any configured prefix yields that prefix
itself as the mount point and the empty-string child path (never the
single-dot placeholder). -/
theorem claim_c6 {β : Type} (table : List (String × β))
    (hcanon : ∀ q ∈ table.map Prod.fst, canonicalPath q = true)
    (p : String) (hp : p ∈ table.map Prod.fst) :
    ∃ mgr, path_lookup table p = some (mgr, p, "") :=
  resolve_configured_root hcanon hp

theorem claim_c6_witness :
    ∃ mgr, path_lookup [("", "A"), ("b", "B"), ("b/c", "C")] "b/c" = some (mgr, "b/c", "") :=
  claim_c6 [("", "A"), ("b", "B"), ("b/c", "C")] (by decide) "b/c" (by decide)

/-- A guarded directory record whose `content` is the *string* `"xy"`
rather than a list. -/
def c10Bad : PyObj :=
  .dictCons "path" (.strV "p") (.dictCons "type" (.strV "directory")
    (.dictCons "content" (.strV "xy") .dictNil))

/-- The transform of `c10Bad`: iterating the string `"xy"` replaces the
`content` field by the list of its characters. -/
def c10BadT : PyObj :=
  .dictCons "path" (.strV "/b/p") (.dictCons "type" (.strV "directory")
    (.dictCons "content" (.listCons (.strV "x") (.listCons (.strV "y") .listNil)) .dictNil))

/-- Claim C10 as stated is false on two counts.  A directory record whose
`content` holds the string `"xy"` is transformed *successfully* (Python
iterates a `str` character by character, each one-character string failing
the guard and passing through unchanged), with the `content` field — a
field other than `path` — changed from the string to the list of its
characters, so scrub-equality fails.  And a string that contains both
`"path"` and `"type"` as substrings is not a record carrying those fields,
yet it passes the membership-based guard and raises a `TypeError` instead
of being returned unchanged. -/
theorem claim_c10_counterexample :
    transform_child_model "b" c10Bad = .ok c10BadT
    ∧ getKey c10Bad "content" = some (.strV "xy")
    ∧ getKey c10BadT "content" =
        some (.listCons (.strV "x") (.listCons (.strV "y") .listNil))
    ∧ scrubModel c10BadT ≠ scrubModel c10Bad
    ∧ guardB (.strV "typepath") = true
    ∧ transform_child_model "b" (.strV "typepath") = .error .typeError := by
  have hg : guardB (.dictCons "path" (.strV "p") (.dictCons "type" (.strV "directory")
      (.dictCons "content" (.strV "xy") .dictNil)) : PyObj) = true := by decide
  have hgT : guardB (.dictCons "path" (.strV "/b/p") (.dictCons "type" (.strV "directory")
      (.dictCons "content" (.listCons (.strV "x") (.listCons (.strV "y") .listNil))
        .dictNil)) : PyObj) = true := by decide
  have hgx : guardB (.strV "x") = false := by decide
  have hgy : guardB (.strV "y") = false := by decide
  have h1 : scrubModel c10Bad =
      .dictCons "path" (.strV "") (.dictCons "type" (.strV "directory")
        (.dictCons "content" (.strV "xy") .dictNil)) := by
    simp [c10Bad, scrubModel_def, hg, scrubEntries_cons, scrubEntries_nil, scrubList_strV,
      isDirB, getKey]
  have h2 : scrubModel c10BadT =
      .dictCons "path" (.strV "") (.dictCons "type" (.strV "directory")
        (.dictCons "content" (.listCons (.strV "x") (.listCons (.strV "y") .listNil))
          .dictNil)) := by
    simp [c10BadT, scrubModel_def, hgT, hgx, hgy, scrubEntries_cons, scrubEntries_nil,
      scrubList_cons, scrubList_nil, isDirB, getKey]
  refine ⟨?_, by decide, by decide, ?_, by decide, ?_⟩
  · simp [c10Bad, c10BadT, transform_child_model, updateFields, transformList,
      transformStrs, transformStrElem, isDirB, getKey, hg, hgx, hgy,
      show pyChars "xy" = ["x", "y"] from by decide,
      show get_full_path "b" "p" = "/b/p" from by decide]
  · rw [h2, h1]
    decide
  · rw [transform_strV]
    unfold transformStrElem
    rw [if_pos (by decide : guardB (.strV "typepath") = true)]

/-- Claim C10 (amended): on every model whose guarded directory records hold
their `content` in lists — in particular every well-formed item model —
the rewrite changes only `path` fields (and the recursively rewritten
`content` elements): scrubbing those positions makes the transformed model
literally equal to the scrubbed input.  Any value failing the transformation
guard — in particular every boolean returned by the existence checks and
any dict lacking a `path` or `type` key — is returned completely unchanged,
while a non-record string that passes the substring-based guard raises a
`TypeError` rather than being returned.  (The restriction to well-formed
models is forced by the counterexample: a guarded directory whose `content`
is a string is transformed successfully with its `content` replaced by the
list of its characters.) -/
theorem claim_c10 (mount_point : String) :
    (∀ b : Bool, transform_child_model mount_point (.boolV b) = .ok (.boolV b))
    ∧ (∀ m : PyObj, guardB m = false → transform_child_model mount_point m = .ok m)
    ∧ (∀ m m2 : PyObj, wfModel m = true → transform_child_model mount_point m = .ok m2 →
        scrubModel m2 = scrubModel m)
    ∧ (∀ s : String, guardB (.strV s) = true →
        transform_child_model mount_point (.strV s) = .error .typeError) := by
  refine ⟨?_, fun m hg => transform_unguarded mount_point hg, ?_, ?_⟩
  · intro b
    apply transform_unguarded
    cases b <;> rfl
  · intro m m2 hwf h
    obtain ⟨m2b, ht, _, hs⟩ := (rewrite_aux (sizeOf m) m le_rfl).1 mount_point hwf
    rw [ht] at h
    injection h with h
    rw [← h]
    exact hs
  · intro s hg
    rw [transform_strV]
    unfold transformStrElem
    rw [if_pos hg]

/-- A one-record file model used to witness C10. -/
def c10Model : PyObj :=
  .dictCons "path" (.strV "f") (.dictCons "type" (.strV "file")
    (.dictCons "last_modified" (.strV "2024") .dictNil))

def c10ModelT : PyObj :=
  .dictCons "path" (.strV "/b/f") (.dictCons "type" (.strV "file")
    (.dictCons "last_modified" (.strV "2024") .dictNil))

theorem claim_c10_witness :
    transform_child_model "b" c10Model = .ok c10ModelT
    ∧ wfModel c10Model = true
    ∧ scrubModel c10ModelT = scrubModel c10Model
    ∧ guardB (.strV "pathtype") = true
    ∧ transform_child_model "b" (.strV "pathtype") = .error .typeError := by
  have hwf : wfModel c10Model = true := by
    simp [c10Model, wfModel_dictCons, wfEntries_cons, wfEntries_nil, guardB, truthy,
      is_iterable, pyIn, isDirB, getKey, strContains]
  have h : transform_child_model "b" c10Model = .ok c10ModelT := by
    simp [c10Model, c10ModelT, transform_child_model, updateFields, guardB, truthy,
      is_iterable, pyIn, isDirB, getKey, show get_full_path "b" "f" = "/b/f" from by decide]
  exact ⟨h, hwf, (claim_c10 "b").2.2.1 c10Model c10ModelT hwf h,
    by decide, (claim_c10 "b").2.2.2 "pathtype" (by decide)⟩

end MixedCM
